import Mathlib

/-!
Verification of the heapless SPSC split queue (`src/spsc/split.rs`) and the
fixed-capacity `Vec` (`src/vec.rs`).

The queue state is embedded shallowly: the two monotonically wrapping counters
`head`/`tail` become naturals reduced modulo `2 ^ w` (`w` = bit width of the
counter type `u8`/`u16`/`usize`), and the `MaybeUninit` backing array becomes a
function `Nat → Option T` where `none` marks an uninitialized slot.
`Producer`/`Consumer` handles hold no state of their own beyond the reference
to the queue, so their methods are embedded as functions on the queue state;
state-returning pairs replace `&mut self` mutation.
-/

namespace Heapless

/-- `wrapping_add` at bit width `w`: both machine operands live below `2 ^ w`. -/
def wrapAdd (w a b : Nat) : Nat := (a + b) % 2 ^ w

/-- `wrapping_sub` at bit width `w` (for `a b < 2 ^ w` this is `a - b` mod `2 ^ w`). -/
def wrapSub (w a b : Nat) : Nat := (a + 2 ^ w - b % 2 ^ w) % 2 ^ w

/-- The queue state of `spsc::Queue<T, U, C, N>`: `w` is the bit width of the
counter type `U`, `N` the const-generic capacity parameter. The `C` (core mode)
parameter only selects atomic vs plain loads and is irrelevant sequentially. -/
structure Queue (T : Type) (w N : Nat) where
  head : Nat
  tail : Nat
  buffer : Nat → Option T

/-- Modelled from the spec: `Queue::new` lives in `spsc/mod.rs`, which is not among
the sources; spec §3 says "Queue is created empty (`head = tail = 0`)" and the
backing storage is logically uninitialized. -/
def Queue.new {T : Type} {w N : Nat} : Queue T w N :=
  { head := 0, tail := 0, buffer := fun _ => none }

/-- Modelled from the spec: the `capacity()` accessor lives in `spsc/mod.rs`, which is
not among the sources. Spec §4.1 allows it to expose either the raw `N` or the usable
`N-1` "but must be self-consistent with the fullness check" `tail.wrapping_sub(head)
> capacity - 1`; §3 requires `occupied ≤ N-1` and §8/§9 fix the external contract to
"exactly N-1 elements fit before enqueue is rejected". With the fullness check of
`split.rs` rejecting at `occupied ≥ capacity`, self-consistency forces
`capacity() = N - 1`. -/
def Queue.capacity {T : Type} {w N : Nat} (_ : Queue T w N) : Nat := N - 1

/-- Number of occupied slots: `tail.wrapping_sub(head)` (spec §3). -/
def Queue.occupied {T : Type} {w N : Nat} (q : Queue T w N) : Nat :=
  wrapSub w q.tail q.head

namespace Producer

/-- `Producer::ready` from `split.rs`: `head.wrapping_add(cap) != tail`.
It takes `&self` in the source, so it cannot mutate the queue; the embedding
reflects this by not returning a state. -/
def ready {T : Type} {w N : Nat} (q : Queue T w N) : Bool :=
  let cap := q.capacity
  let tail := q.tail
  let head := q.head
  wrapAdd w head cap != tail

/-- `Producer::_enqueue` from `split.rs`: write `item` into slot `tail % cap`,
then store `tail.wrapping_add(1)`. -/
def enqueuePriv {T : Type} {w N : Nat} (q : Queue T w N) (tail : Nat) (item : T) :
    Queue T w N :=
  let cap := q.capacity
  { q with
    buffer := fun i => if i = tail % cap then some item else q.buffer i
    tail := wrapAdd w tail 1 }

/-- `Producer::enqueue` from `split.rs`: reject iff
`tail.wrapping_sub(head) > cap - 1`, otherwise `_enqueue`. The returned state is
the queue after the call (`&mut self` made explicit). -/
def enqueue {T : Type} {w N : Nat} (q : Queue T w N) (item : T) :
    Except T Unit × Queue T w N :=
  let cap := q.capacity
  let tail := q.tail
  let head := q.head
  if wrapSub w tail head > cap - 1 then
    (Except.error item, q)
  else
    (Except.ok (), enqueuePriv q tail item)

/-- `Producer::enqueue_unchecked` from `split.rs`: `_enqueue` at the current tail,
with no fullness check (the `debug_assert` is compiled out). -/
def enqueueUnchecked {T : Type} {w N : Nat} (q : Queue T w N) (item : T) :
    Queue T w N :=
  enqueuePriv q q.tail item

end Producer

namespace Consumer

/-- `Consumer::ready` from `split.rs`: `head != tail`. Takes `&self`, hence no
returned state. -/
def ready {T : Type} {w N : Nat} (q : Queue T w N) : Bool :=
  q.head != q.tail

/-- `Consumer::_dequeue` from `split.rs`: read slot `head % cap` and store
`head.wrapping_add(1)`. Reading an uninitialized slot yields `none` (the Rust
counterpart would be undefined behaviour; under the queue invariant the slot
is always initialized). -/
def dequeuePriv {T : Type} {w N : Nat} (q : Queue T w N) (head : Nat) :
    Option T × Queue T w N :=
  let cap := q.capacity
  let item := q.buffer (head % cap)
  (item, { q with head := wrapAdd w head 1 })

/-- `Consumer::dequeue` from `split.rs`: `_dequeue` when `head != tail`, else
`None` with no state change. -/
def dequeue {T : Type} {w N : Nat} (q : Queue T w N) : Option T × Queue T w N :=
  if q.head ≠ q.tail then dequeuePriv q q.head else (none, q)

/-- `Consumer::dequeue_unchecked` from `split.rs`: `_dequeue` at the current head,
with no emptiness check (the `debug_assert` is compiled out). -/
def dequeueUnchecked {T : Type} {w N : Nat} (q : Queue T w N) :
    Option T × Queue T w N :=
  dequeuePriv q q.head

end Consumer

/-- The occupancy invariant of spec §3, specialized to the embedded state:
counters are in range for width `w`, the capacity is representable, at most
`N-1` slots are occupied, and every occupied slot holds a live value. -/
@[reducible] def Inv {T : Type} {w N : Nat} (q : Queue T w N) : Prop :=
  2 ≤ N ∧ N ≤ 2 ^ w ∧ q.head < 2 ^ w ∧ q.tail < 2 ^ w ∧ q.occupied ≤ N - 1 ∧
    ∀ i, i < q.occupied → (q.buffer (wrapAdd w q.head i % (N - 1))).isSome

/-- Run a sequence of checked enqueues, collecting each call's result. -/
def enqueueRun {T : Type} {w N : Nat} :
    Queue T w N → List T → List (Except T Unit) × Queue T w N
  | q, [] => ([], q)
  | q, x :: xs =>
    ((Producer.enqueue q x).1 :: (enqueueRun (Producer.enqueue q x).2 xs).1,
     (enqueueRun (Producer.enqueue q x).2 xs).2)

/-- A single checked call issued against a split pair: a producer-side enqueue
or a consumer-side dequeue. -/
inductive Op (T : Type) where
  | enq : T → Op T
  | deq : Op T
deriving DecidableEq

/-- The observable outcome of one call. -/
inductive Ev (T : Type) where
  | enqOk : Ev T
  | enqErr : T → Ev T
  | deqRes : Option T → Ev T
deriving DecidableEq

/-- The event produced by a checked enqueue's result. -/
def evOfResult {T : Type} : Except T Unit → Ev T
  | Except.ok _ => Ev.enqOk
  | Except.error y => Ev.enqErr y

/-- Run a sequence of checked calls against the queue, collecting the
observable outcome of every call. -/
def runQueue {T : Type} {w N : Nat} :
    Queue T w N → List (Op T) → List (Ev T) × Queue T w N
  | q, [] => ([], q)
  | q, Op.enq x :: ops =>
    (evOfResult (Producer.enqueue q x).1 :: (runQueue (Producer.enqueue q x).2 ops).1,
     (runQueue (Producer.enqueue q x).2 ops).2)
  | q, Op.deq :: ops =>
    (Ev.deqRes (Consumer.dequeue q).1 :: (runQueue (Consumer.dequeue q).2 ops).1,
     (runQueue (Consumer.dequeue q).2 ops).2)

/-- Modelled from the spec, as the reference side of the FIFO refinement
(spec §5/§8): an ideal bounded FIFO queue holding at most `cap` values; an
enqueue below capacity appends at the back and is accepted, an enqueue at
capacity is rejected returning the value, a dequeue takes from the front. -/
def runSpec {T : Type} (cap : Nat) :
    List T → List (Op T) → List (Ev T) × List T
  | st, [] => ([], st)
  | st, Op.enq x :: ops =>
    if st.length < cap then
      (Ev.enqOk :: (runSpec cap (st ++ [x]) ops).1, (runSpec cap (st ++ [x]) ops).2)
    else
      (Ev.enqErr x :: (runSpec cap st ops).1, (runSpec cap st ops).2)
  | st, Op.deq :: ops =>
    match st with
    | [] =>
      (Ev.deqRes none :: (runSpec cap [] ops).1, (runSpec cap [] ops).2)
    | v :: rest =>
      (Ev.deqRes (some v) :: (runSpec cap rest ops).1, (runSpec cap rest ops).2)

/-- The simulation relation between a queue state and the ideal FIFO content:
slot `head + j` (wrapped, then reduced mod the capacity) holds the `j`-th
pending value. -/
def Sim {T : Type} {w N : Nat} (q : Queue T w N) (st : List T) : Prop :=
  q.head < 2 ^ w ∧ q.tail < 2 ^ w ∧ st.length = q.occupied ∧ st.length ≤ N - 1 ∧
    ∀ j : Fin st.length, q.buffer (wrapAdd w q.head j % (N - 1)) = some (st.get j)

/-- `n` rounds of enqueue-then-dequeue, used to drive the counters forward
without changing the queue's content. -/
def pump : Nat → List (Op Nat)
  | 0 => []
  | n + 1 => Op.enq 0 :: Op.deq :: pump n

/-- Counterexample schedule for the unconditional FIFO claim: advance the `u8`
counters of a capacity-4 queue to 254, then enqueue 1, 2, 3 and dequeue three
times. -/
def cexOps : List (Op Nat) :=
  pump 254 ++ [Op.enq 1, Op.enq 2, Op.enq 3, Op.deq, Op.deq, Op.deq]

/-- The events produced by `pump n`: each round is an accepted enqueue of `0`
followed by a dequeue returning `0`. -/
def pumpEvs : Nat → List (Ev Nat)
  | 0 => []
  | n + 1 => Ev.enqOk :: Ev.deqRes (some 0) :: pumpEvs n

/-- A concrete full queue (`u8` counters, `N = 4`, occupied `= 3`), used by
witnesses. -/
def qFull : Queue Nat 8 4 :=
  { head := 0, tail := 3, buffer := fun i => if i < 3 then some (i + 1) else none }

/-- A concrete queue holding one value (`u8` counters, `N = 4`), used by
witnesses. -/
def qOne : Queue Nat 8 4 :=
  { head := 0, tail := 1, buffer := fun i => if i = 0 then some 7 else none }

/-- The state of `Vec<T, N>` from `vec.rs`: a `MaybeUninit` backing array
(`none` = uninitialized) and the current length. -/
structure Vec (T : Type) (N : Nat) where
  buffer : Nat → Option T
  len : Nat

/-- `Vec::new` from `vec.rs`: uninitialized buffer, `len = 0`. -/
def Vec.new {T : Type} {N : Nat} : Vec T N :=
  { buffer := fun _ => none, len := 0 }

/-- `Vec::capacity` from `vec.rs`: returns `N`. -/
def Vec.capacity {T : Type} {N : Nat} (_ : Vec T N) : Nat := N

/-- `Vec::is_full` from `vec.rs`: `len == capacity`. -/
def Vec.isFull {T : Type} {N : Nat} (v : Vec T N) : Bool :=
  v.len == v.capacity

/-- `Vec::push_unchecked` from `vec.rs`: write at index `len`, increment `len`. -/
def Vec.pushUnchecked {T : Type} {N : Nat} (v : Vec T N) (item : T) : Vec T N :=
  { buffer := fun i => if i = v.len then some item else v.buffer i
    len := v.len + 1 }

/-- `Vec::push` from `vec.rs`: `push_unchecked` when `len < capacity`, else
return the item back. -/
def Vec.push {T : Type} {N : Nat} (v : Vec T N) (item : T) :
    Except T Unit × Vec T N :=
  if v.len < v.capacity then (Except.ok (), v.pushUnchecked item)
  else (Except.error item, v)

/-- `Vec::extend_from_slice` from `vec.rs`: reject whole slice if it does not
fit, otherwise `push_unchecked` each element in order (cloning is identity in
the embedding). -/
def Vec.extendFromSlice {T : Type} {N : Nat} (v : Vec T N) (other : List T) :
    Except Unit Unit × Vec T N :=
  if v.len + other.length > v.capacity then (Except.error (), v)
  else (Except.ok (), other.foldl (fun acc x => acc.pushUnchecked x) v)

/-- A concrete two-element vector with capacity 4, used by witnesses. -/
def vTwo : Vec Nat 4 :=
  { buffer := fun i => if i < 2 then some (i + 10) else none, len := 2 }

/-- A concrete full vector with capacity 2, used by witnesses. -/
def vFull : Vec Nat 2 :=
  { buffer := fun i => if i < 2 then some i else none, len := 2 }

/-! ### Arithmetic of width-wrapped counters -/

theorem two_pow_pos (w : Nat) : 0 < 2 ^ w := Nat.pos_pow_of_pos w (by norm_num)

theorem wrapAdd_lt (w a b : Nat) : wrapAdd w a b < 2 ^ w :=
  Nat.mod_lt _ (two_pow_pos w)

theorem wrapSub_lt (w a b : Nat) : wrapSub w a b < 2 ^ w :=
  Nat.mod_lt _ (two_pow_pos w)

theorem wrapAdd_cast (w a b : Nat) :
    ((wrapAdd w a b : Nat) : ZMod (2 ^ w)) = (a : ZMod (2 ^ w)) + b := by
  unfold wrapAdd
  rw [ZMod.natCast_mod]
  push_cast
  ring

theorem wrapSub_cast (w a b : Nat) :
    ((wrapSub w a b : Nat) : ZMod (2 ^ w)) = (a : ZMod (2 ^ w)) - b := by
  unfold wrapSub
  rw [ZMod.natCast_mod, Nat.cast_sub (le_add_left (Nat.le_of_lt (Nat.mod_lt _ (two_pow_pos w)))),
    ZMod.natCast_mod, Nat.cast_add, ZMod.natCast_self]
  ring

theorem counter_eq_of_cast_eq {w a b : Nat} (ha : a < 2 ^ w) (hb : b < 2 ^ w)
    (h : (a : ZMod (2 ^ w)) = (b : ZMod (2 ^ w))) : a = b := by
  have := congrArg ZMod.val h
  rwa [ZMod.val_natCast_of_lt ha, ZMod.val_natCast_of_lt hb] at this

/-- `head + (tail - head) = tail` in wrapping arithmetic: advancing `head` by the
occupied count lands on `tail`. -/
theorem wrapAdd_wrapSub {w h t : Nat} (_hh : h < 2 ^ w) (ht : t < 2 ^ w) :
    wrapAdd w h (wrapSub w t h) = t := by
  refine counter_eq_of_cast_eq (wrapAdd_lt w _ _) ht ?_
  rw [wrapAdd_cast, wrapSub_cast]
  ring

/-- Advancing `tail` by one increments the occupied count, as long as it stays
representable. -/
theorem wrapSub_succ_left {w h t c : Nat} (hocc : wrapSub w t h = c)
    (hc : c + 1 < 2 ^ w) : wrapSub w (wrapAdd w t 1) h = c + 1 := by
  refine counter_eq_of_cast_eq (wrapSub_lt w _ _) hc ?_
  rw [wrapSub_cast, wrapAdd_cast]
  have := congrArg (fun x : Nat => (x : ZMod (2 ^ w))) hocc
  simp only at this
  rw [wrapSub_cast] at this
  push_cast
  rw [← this]
  ring

/-- Advancing `head` by one decrements a positive occupied count. -/
theorem wrapSub_succ_right {w h t c : Nat} (hocc : wrapSub w t h = c + 1)
    (hc : c + 1 < 2 ^ w) : wrapSub w t (wrapAdd w h 1) = c := by
  refine counter_eq_of_cast_eq (wrapSub_lt w _ _) (Nat.lt_of_succ_lt hc) ?_
  rw [wrapSub_cast, wrapAdd_cast]
  have := congrArg (fun x : Nat => (x : ZMod (2 ^ w))) hocc
  simp only at this
  rw [wrapSub_cast] at this
  push_cast at this ⊢
  rw [sub_add_eq_sub_sub, this]
  ring

/-- The occupied count is zero exactly when the counters coincide. -/
theorem wrapSub_eq_zero_iff {w h t : Nat} (hh : h < 2 ^ w) (ht : t < 2 ^ w) :
    wrapSub w t h = 0 ↔ h = t := by
  constructor
  · intro h0
    refine counter_eq_of_cast_eq hh ht ?_
    have := congrArg (fun x : Nat => (x : ZMod (2 ^ w))) h0
    simp only [Nat.cast_zero] at this
    rw [wrapSub_cast] at this
    have h1 : (t : ZMod (2 ^ w)) - h = 0 := this
    exact (sub_eq_zero.mp h1).symm
  · intro he
    subst he
    refine counter_eq_of_cast_eq (wrapSub_lt w _ _) (two_pow_pos w) ?_
    rw [wrapSub_cast]
    simp

/-- `head.wrapping_add(cap) = tail` exactly when the occupied count equals `cap`
(for representable values). -/
theorem wrapAdd_cap_eq_iff {w h t c : Nat} (hh : h < 2 ^ w) (ht : t < 2 ^ w)
    (hc : c < 2 ^ w) : wrapAdd w h c = t ↔ wrapSub w t h = c := by
  constructor
  · intro he
    refine counter_eq_of_cast_eq (wrapSub_lt w _ _) hc ?_
    have := congrArg (fun x : Nat => (x : ZMod (2 ^ w))) he
    simp only at this
    rw [wrapAdd_cast] at this
    rw [wrapSub_cast, ← this]
    ring
  · intro he
    rw [← he]
    exact wrapAdd_wrapSub hh ht

/-- Subtracting zero is reduction mod the width. -/
theorem wrapSub_zero_right (w a : Nat) : wrapSub w a 0 = a % 2 ^ w := by
  unfold wrapSub
  rw [Nat.zero_mod, Nat.sub_zero, Nat.add_mod_right]

/-! ### Per-operation claims -/

/-- C3: `Producer::enqueue(item)` returns `Err(item)` exactly when
`tail.wrapping_sub(head) > capacity - 1` (in the counter width); in the error
case `head`, `tail` and the buffer are all unchanged; otherwise it returns
`Ok(())`. -/
theorem enqueue_err_iff_full {T : Type} {w N : Nat} (q : Queue T w N) (item : T)
    (_hN : 2 ≤ N) :
    ((Producer.enqueue q item).1 = Except.error item ↔
      wrapSub w q.tail q.head > q.capacity - 1)
    ∧ (wrapSub w q.tail q.head > q.capacity - 1 → (Producer.enqueue q item).2 = q)
    ∧ (¬ wrapSub w q.tail q.head > q.capacity - 1 →
      (Producer.enqueue q item).1 = Except.ok ()) := by
  unfold Producer.enqueue
  by_cases h : wrapSub w q.tail q.head > q.capacity - 1 <;> simp [h]

/-- Witness for C3 at the full queue `qFull` (`occupied = 3 > capacity - 1 = 2`). -/
theorem enqueue_err_iff_full_witness :
    (Producer.enqueue qFull 9).1 = Except.error 9 ∧ (Producer.enqueue qFull 9).2 = qFull :=
  ⟨(enqueue_err_iff_full qFull 9 (by decide)).1.mpr (by decide),
   (enqueue_err_iff_full qFull 9 (by decide)).2.1 (by decide)⟩

/-- C4: `Consumer::dequeue` returns `None` and leaves `head`, `tail` and the
buffer untouched exactly when `head == tail`; when `head != tail` it returns
the value stored at slot `head mod capacity` (a `Some` under the occupancy
invariant), replaces `head` by `head.wrapping_add(1)` in the counter width, and
leaves `tail` and the buffer unchanged. -/
theorem dequeue_step_spec {T : Type} {w N : Nat} (q : Queue T w N) :
    (q.head = q.tail → Consumer.dequeue q = (none, q))
    ∧ (q.head ≠ q.tail →
        (Consumer.dequeue q).1 = q.buffer (q.head % q.capacity)
        ∧ (Consumer.dequeue q).2.head = wrapAdd w q.head 1
        ∧ (Consumer.dequeue q).2.tail = q.tail
        ∧ (Consumer.dequeue q).2.buffer = q.buffer)
    ∧ (Inv q → q.head ≠ q.tail →
        ∃ v, q.buffer (q.head % q.capacity) = some v
          ∧ (Consumer.dequeue q).1 = some v) := by
  refine ⟨fun he => ?_, fun hne => ?_, fun hq hne => ?_⟩
  · unfold Consumer.dequeue
    simp [he]
  · unfold Consumer.dequeue Consumer.dequeuePriv
    simp [hne]
  · obtain ⟨hN, hNw, hh, ht, hocc, hslots⟩ := hq
    have hpos : 0 < q.occupied := by
      rcases Nat.eq_zero_or_pos q.occupied with h0 | h0

      · exact absurd ((wrapSub_eq_zero_iff hh ht).mp h0) hne
      · exact h0
    have hslot : (q.buffer (wrapAdd w q.head 0 % (N - 1))).isSome := hslots 0 hpos
    have hidx : wrapAdd w q.head 0 % (N - 1) = q.head % q.capacity := by
      unfold wrapAdd Queue.capacity
      rw [Nat.add_zero, Nat.mod_eq_of_lt hh]
    rw [hidx] at hslot
    obtain ⟨v, hv⟩ := Option.isSome_iff_exists.mp hslot
    refine ⟨v, hv, ?_⟩
    unfold Consumer.dequeue Consumer.dequeuePriv
    simp [hne, hv]

/-- Witness for C4 at the one-element queue `qOne` (`head = 0 ≠ tail = 1`). -/
theorem dequeue_step_spec_witness :
    (Consumer.dequeue qOne).1 = qOne.buffer (qOne.head % qOne.capacity)
    ∧ (Consumer.dequeue qOne).2.head = wrapAdd 8 qOne.head 1
    ∧ (Consumer.dequeue qOne).2.tail = qOne.tail :=
  ⟨((dequeue_step_spec qOne).2.1 (by decide)).1,
   ((dequeue_step_spec qOne).2.1 (by decide)).2.1,
   ((dequeue_step_spec qOne).2.1 (by decide)).2.2.1⟩

/-- C5: whenever `Producer::enqueue` succeeds it writes the item into buffer
slot `tail mod capacity`, replaces `tail` by `tail.wrapping_add(1)` in the
counter width, and leaves `head` and every other buffer slot unchanged. -/
theorem enqueue_success_spec {T : Type} {w N : Nat} (q : Queue T w N) (item : T)
    (h : ¬ wrapSub w q.tail q.head > q.capacity - 1) :
    (Producer.enqueue q item).1 = Except.ok ()
    ∧ (Producer.enqueue q item).2.buffer (q.tail % q.capacity) = some item
    ∧ (Producer.enqueue q item).2.tail = wrapAdd w q.tail 1
    ∧ (Producer.enqueue q item).2.head = q.head
    ∧ ∀ i, i ≠ q.tail % q.capacity →
        (Producer.enqueue q item).2.buffer i = q.buffer i := by
  unfold Producer.enqueue Producer.enqueuePriv
  refine ⟨by simp [h], by simp [h], by simp [h], by simp [h], fun i hi => by simp [h, hi]⟩

/-- Witness for C5 at the one-element queue `qOne` (occupancy `1 ≤ capacity - 1`). -/
theorem enqueue_success_spec_witness :
    (Producer.enqueue qOne 5).1 = Except.ok ()
    ∧ (Producer.enqueue qOne 5).2.buffer (qOne.tail % qOne.capacity) = some 5
    ∧ (Producer.enqueue qOne 5).2.tail = wrapAdd 8 qOne.tail 1
    ∧ (Producer.enqueue qOne 5).2.head = qOne.head :=
  ⟨(enqueue_success_spec qOne 5 (by decide)).1,
   (enqueue_success_spec qOne 5 (by decide)).2.1,
   (enqueue_success_spec qOne 5 (by decide)).2.2.1,
   (enqueue_success_spec qOne 5 (by decide)).2.2.2.1⟩

/-- C6: under the occupancy invariant, `Producer::ready` computes
`head.wrapping_add(capacity) != tail` and holds exactly when an immediately
following enqueue succeeds; `Consumer::ready` computes `head != tail` and holds
exactly when an immediately following dequeue returns a value. Both are
`&self` operations and leave the state unchanged by construction. -/
theorem ready_iff_op_succeeds {T : Type} {w N : Nat} (q : Queue T w N) (x : T)
    (hq : Inv q) :
    Producer.ready q = (wrapAdd w q.head q.capacity != q.tail)
    ∧ (Producer.ready q = true ↔ (Producer.enqueue q x).1 = Except.ok ())
    ∧ Consumer.ready q = (q.head != q.tail)
    ∧ (Consumer.ready q = true ↔ (Consumer.dequeue q).1.isSome = true) := by
  obtain ⟨hN, hNw, hh, ht, hocc, hslots⟩ := hq
  have hcap1 : 1 ≤ N - 1 := by omega
  have hcapw : N - 1 < 2 ^ w := lt_of_lt_of_le (by omega) hNw
  refine ⟨rfl, ?_, rfl, ?_⟩
  · have hready : Producer.ready q = true ↔ wrapAdd w q.head (N - 1) ≠ q.tail := by
      unfold Producer.ready Queue.capacity
      simp only [bne_iff_ne, ne_eq]
    have hok : (Producer.enqueue q x).1 = Except.ok () ↔
        ¬ wrapSub w q.tail q.head > N - 1 - 1 := by
      unfold Producer.enqueue Queue.capacity
      by_cases hfull : wrapSub w q.tail q.head > N - 1 - 1 <;> simp [hfull]
    rw [hready, hok]
    rw [ne_eq, wrapAdd_cap_eq_iff hh ht hcapw]
    unfold Queue.occupied at hocc
    omega
  · have hready : Consumer.ready q = true ↔ q.head ≠ q.tail := by
      unfold Consumer.ready
      simp only [bne_iff_ne, ne_eq]
    rw [hready]
    constructor
    · intro hne
      have hpos : 0 < q.occupied := by
        rcases Nat.eq_zero_or_pos q.occupied with h0 | h0
        · exact absurd ((wrapSub_eq_zero_iff hh ht).mp h0) hne
        · exact h0
      have hslot : (q.buffer (wrapAdd w q.head 0 % (N - 1))).isSome := hslots 0 hpos
      have hidx : wrapAdd w q.head 0 % (N - 1) = q.head % (N - 1) := by
        unfold wrapAdd
        rw [Nat.add_zero, Nat.mod_eq_of_lt hh]
      rw [hidx] at hslot
      unfold Consumer.dequeue Consumer.dequeuePriv Queue.capacity
      simpa [hne] using hslot
    · intro hsome
      rcases eq_or_ne q.head q.tail with he | he
      · unfold Consumer.dequeue at hsome
        simp [he] at hsome
      · exact he

/-- Witness for C6 at the one-element queue `qOne` (invariant holds, both sides
ready). -/
theorem ready_iff_op_succeeds_witness :
    (Producer.enqueue qOne 5).1 = Except.ok ()
    ∧ (Consumer.dequeue qOne).1.isSome = true :=
  ⟨(ready_iff_op_succeeds qOne 5 (by decide)).2.1.mp (by decide),
   (ready_iff_op_succeeds qOne 5 (by decide)).2.2.2.mp (by decide)⟩

/-- C7: the producer-side operations never change `head`, and the
consumer-side operations never change `tail` (`ready` on both sides takes
`&self` in the source and is embedded as a pure function, so it changes
nothing). -/
theorem counter_ownership {T : Type} {w N : Nat} (q : Queue T w N) (x : T) :
    (Producer.enqueue q x).2.head = q.head
    ∧ (Producer.enqueueUnchecked q x).head = q.head
    ∧ (Consumer.dequeue q).2.tail = q.tail
    ∧ (Consumer.dequeueUnchecked q).2.tail = q.tail := by
  refine ⟨?_, rfl, ?_, rfl⟩
  · unfold Producer.enqueue Producer.enqueuePriv
    by_cases h : wrapSub w q.tail q.head > q.capacity - 1 <;> simp [h]
  · unfold Consumer.dequeue Consumer.dequeuePriv
    by_cases h : q.head ≠ q.tail <;> simp [h]

/-! ### C1: exactly N-1 slots are usable from a fresh queue -/

/-- Enqueueing onto a fresh-tailed queue (`head = 0`, `tail = j`) succeeds for
every element while `j + length ≤ N - 1`, advancing `tail` by one per element. -/
theorem enqueueRun_fresh {T : Type} {w N : Nat} (hN : 2 ≤ N) (hNw : N ≤ 2 ^ w) :
    ∀ (xs : List T) (j : Nat) (q : Queue T w N), q.head = 0 → q.tail = j →
      j + xs.length ≤ N - 1 →
      (enqueueRun q xs).1 = List.replicate xs.length (Except.ok ())
      ∧ (enqueueRun q xs).2.head = 0 ∧ (enqueueRun q xs).2.tail = j + xs.length := by
  intro xs
  induction xs with
  | nil =>
    intro j q hh ht _
    exact ⟨rfl, hh, by simpa using ht⟩
  | cons x xs ih =>
    intro j q hh ht hle
    simp only [List.length_cons] at hle
    have hjw : j < 2 ^ w := lt_of_le_of_lt (by omega : j ≤ N - 1) (lt_of_lt_of_le (by omega) hNw)
    have hocc : wrapSub w q.tail q.head = j := by
      rw [hh, ht, wrapSub_zero_right, Nat.mod_eq_of_lt hjw]
    have hnotfull : ¬ wrapSub w q.tail q.head > q.capacity - 1 := by
      show ¬ wrapSub w q.tail q.head > N - 1 - 1
      rw [hocc]
      omega
    have henq : Producer.enqueue q x = (Except.ok (), Producer.enqueuePriv q q.tail x) := by
      unfold Producer.enqueue
      rw [if_neg hnotfull]
    have htail1 : (Producer.enqueuePriv q q.tail x).tail = j + 1 := by
      unfold Producer.enqueuePriv wrapAdd
      rw [ht]
      exact Nat.mod_eq_of_lt (lt_of_le_of_lt (by omega : j + 1 ≤ N - 1)
        (lt_of_lt_of_le (by omega) hNw))
    have hhead1 : (Producer.enqueuePriv q q.tail x).head = 0 := hh
    have hrest := ih (j + 1) (Producer.enqueuePriv q q.tail x) hhead1 htail1 (by omega)
    refine ⟨?_, ?_, ?_⟩
    · show ((Producer.enqueue q x).1 :: (enqueueRun (Producer.enqueue q x).2 xs).1)
        = List.replicate (x :: xs).length (Except.ok ())
      rw [henq, List.length_cons, List.replicate_succ]
      exact congrArg _ hrest.1
    · show (enqueueRun (Producer.enqueue q x).2 xs).2.head = 0
      rw [henq]
      exact hrest.2.1
    · show (enqueueRun (Producer.enqueue q x).2 xs).2.tail = j + (x :: xs).length
      rw [henq, hrest.2.2, List.length_cons]
      omega

/-- C1: for capacity `N ≥ 2` (with `N` representable in the counter width),
starting from a fresh queue, the first `N-1` checked enqueues all succeed, the
`N`-th is rejected returning the original item, and the occupied count along
the whole run never exceeds `N-1`. -/
theorem usable_capacity_n_minus_one {T : Type} {w N : Nat} (hN : 2 ≤ N)
    (hNw : N ≤ 2 ^ w) (xs : List T) (hlen : xs.length = N - 1) (y : T) :
    (enqueueRun (Queue.new : Queue T w N) (xs ++ [y])).1
      = List.replicate (N - 1) (Except.ok ()) ++ [Except.error y]
    ∧ ∀ k, ((enqueueRun (Queue.new : Queue T w N) ((xs ++ [y]).take k)).2).occupied
        ≤ N - 1 := by
  have hcapw : N - 1 < 2 ^ w := lt_of_lt_of_le (by omega) hNw
  have hout := enqueueRun_fresh hN hNw xs 0 Queue.new rfl rfl (by omega)
  have happ : ∀ (l1 l2 : List T) (q : Queue T w N),
      enqueueRun q (l1 ++ l2)
        = ((enqueueRun q l1).1 ++ (enqueueRun (enqueueRun q l1).2 l2).1,
           (enqueueRun (enqueueRun q l1).2 l2).2) := by
    intro l1
    induction l1 with
    | nil => intro l2 q; rfl
    | cons a l1 ih =>
      intro l2 q
      simp only [List.cons_append, enqueueRun, List.append_eq, ih]
  have hq1h : (enqueueRun (Queue.new : Queue T w N) xs).2.head = 0 := hout.2.1
  have hq1t : (enqueueRun (Queue.new : Queue T w N) xs).2.tail = N - 1 := by
    rw [hout.2.2, hlen]
    omega
  have hq1occ : (enqueueRun (Queue.new : Queue T w N) xs).2.occupied = N - 1 := by
    unfold Queue.occupied
    rw [hq1h, hq1t, wrapSub_zero_right, Nat.mod_eq_of_lt hcapw]
  have herr : Producer.enqueue (enqueueRun (Queue.new : Queue T w N) xs).2 y
      = (Except.error y, (enqueueRun (Queue.new : Queue T w N) xs).2) := by
    unfold Producer.enqueue Queue.capacity
    rw [if_pos]
    show wrapSub w _ _ > N - 1 - 1
    have : wrapSub w (enqueueRun (Queue.new : Queue T w N) xs).2.tail
        (enqueueRun (Queue.new : Queue T w N) xs).2.head = N - 1 := hq1occ
    rw [this]
    omega
  constructor
  · rw [happ xs [y] Queue.new, hout.1, hlen]
    show List.replicate (N - 1) (Except.ok ()) ++ ((Producer.enqueue _ y).1 :: _)
      = List.replicate (N - 1) (Except.ok ()) ++ [Except.error y]
    rw [herr]
    rfl
  · intro k
    rcases le_or_lt k xs.length with hk | hk
    · rw [List.take_append_of_le_length hk]
      have htk := enqueueRun_fresh hN hNw (xs.take k) 0 Queue.new rfl rfl
        (by rw [List.length_take]; omega)
      unfold Queue.occupied
      rw [htk.2.1, htk.2.2, wrapSub_zero_right, Nat.zero_add, Nat.mod_eq_of_lt
        (lt_of_le_of_lt (by rw [List.length_take]; omega) hcapw)]
      rw [List.length_take]
      omega
    · have hall : (xs ++ [y]).take k = xs ++ [y] :=
        List.take_of_length_le (by rw [List.length_append]; simp; omega)
      rw [hall, happ xs [y] Queue.new]
      show ((enqueueRun (enqueueRun (Queue.new : Queue T w N) xs).2 [y]).2).occupied ≤ N - 1
      show ((enqueueRun (Producer.enqueue (enqueueRun (Queue.new : Queue T w N) xs).2 y).2
        []).2).occupied ≤ N - 1
      rw [herr]
      show ((enqueueRun (enqueueRun (Queue.new : Queue T w N) xs).2 []).2).occupied ≤ N - 1
      rw [show (enqueueRun (enqueueRun (Queue.new : Queue T w N) xs).2 []).2
        = (enqueueRun (Queue.new : Queue T w N) xs).2 from rfl, hq1occ]

/-- Witness for C1 at `N = 4`, `u8` counters: three enqueues succeed, the
fourth fails, and occupancy stays at most 3. -/
theorem usable_capacity_n_minus_one_witness :
    (enqueueRun (Queue.new : Queue Nat 8 4) ([1, 2, 3] ++ [4])).1
      = List.replicate 3 (Except.ok ()) ++ [Except.error 4]
    ∧ ((enqueueRun (Queue.new : Queue Nat 8 4) (([1, 2, 3] ++ [4]).take 2)).2).occupied
      ≤ 3 :=
  ⟨(usable_capacity_n_minus_one (by decide) (by decide) [1, 2, 3] (by decide) 4).1,
   (usable_capacity_n_minus_one (by decide) (by decide) [1, 2, 3] (by decide) 4).2 2⟩

/-! ### Vec claims (C9, C10) -/

/-- C9: `Vec::push` succeeds exactly when `len < N` (the full capacity `N` is
usable): on success it stores the item at index `len`, increments `len`, and
leaves every other slot unchanged; when `len == N` it returns the item back
with the vector untouched. -/
theorem vec_push_spec {T : Type} {N : Nat} (v : Vec T N) (x : T) :
    ((Vec.push v x).1 = Except.ok () ↔ v.len < N)
    ∧ (v.len < N →
        (Vec.push v x).2.len = v.len + 1
        ∧ (Vec.push v x).2.buffer v.len = some x
        ∧ ∀ i, i ≠ v.len → (Vec.push v x).2.buffer i = v.buffer i)
    ∧ (v.len = N → Vec.push v x = (Except.error x, v)) := by
  unfold Vec.push Vec.pushUnchecked Vec.capacity
  by_cases h : v.len < N
  · exact ⟨by simp [h], fun _ => ⟨by simp [h], by simp [h], fun i hi => by simp [h, hi]⟩,
      fun he => by omega⟩
  · exact ⟨by simp [h], fun hlt => absurd hlt h, fun _ => by simp [h]⟩

/-- Witness for C9: push onto a vector with room (`vTwo`) and onto a full one
(`vFull`). -/
theorem vec_push_spec_witness :
    (Vec.push vTwo 5).1 = Except.ok ()
    ∧ (Vec.push vTwo 5).2.len = vTwo.len + 1
    ∧ (Vec.push vTwo 5).2.buffer vTwo.len = some 5
    ∧ Vec.push vFull 9 = (Except.error 9, vFull) :=
  ⟨(vec_push_spec vTwo 5).1.mpr (by decide),
   ((vec_push_spec vTwo 5).2.1 (by decide)).1,
   ((vec_push_spec vTwo 5).2.1 (by decide)).2.1,
   (vec_push_spec vFull 9).2.2 (by decide)⟩

/-- Folding `push_unchecked` over a list adds its length to `len`. -/
theorem foldl_pushUnchecked_len {T : Type} {N : Nat} :
    ∀ (other : List T) (v : Vec T N),
      (other.foldl (fun acc x => acc.pushUnchecked x) v).len = v.len + other.length := by
  intro other
  induction other with
  | nil => intro v; simp
  | cons x xs ih =>
    intro v
    rw [List.foldl_cons, ih]
    show (Vec.pushUnchecked v x).len + xs.length = v.len + (x :: xs).length
    unfold Vec.pushUnchecked
    simp only [List.length_cons]
    omega

/-- Folding `push_unchecked` over a list leaves slots below the original
length unchanged. -/
theorem foldl_pushUnchecked_low {T : Type} {N : Nat} :
    ∀ (other : List T) (v : Vec T N) (i : Nat), i < v.len →
      (other.foldl (fun acc x => acc.pushUnchecked x) v).buffer i = v.buffer i := by
  intro other
  induction other with
  | nil => intro v i _; rfl
  | cons x xs ih =>
    intro v i hi
    rw [List.foldl_cons, ih (v.pushUnchecked x) i
      (by show i < v.len + 1; omega)]
    unfold Vec.pushUnchecked
    simp only
    rw [if_neg (by omega)]

/-- Folding `push_unchecked` over a list writes its elements in order right
after the original contents. -/
theorem foldl_pushUnchecked_new {T : Type} {N : Nat} :
    ∀ (other : List T) (v : Vec T N) (j : Fin other.length),
      (other.foldl (fun acc x => acc.pushUnchecked x) v).buffer (v.len + j)
        = some (other.get j) := by
  intro other
  induction other with
  | nil => intro v j; exact absurd j.2 (by simp)
  | cons x xs ih =>
    intro v j
    rw [List.foldl_cons]
    rcases j with ⟨jv, hj⟩
    cases jv with
    | zero =>
      rw [Nat.add_zero, foldl_pushUnchecked_low xs (v.pushUnchecked x) v.len
        (by show v.len < v.len + 1; omega)]
      show (if v.len = v.len then some x else v.buffer v.len) = some x
      rw [if_pos rfl]
    | succ jj =>
      have hj2 : jj < xs.length := by simpa using Nat.lt_of_succ_lt_succ hj
      have := ih (v.pushUnchecked x) ⟨jj, hj2⟩
      have hlen : (Vec.pushUnchecked v x).len = v.len + 1 := rfl
      rw [hlen] at this
      rw [show v.len + (jj + 1) = v.len + 1 + jj from by omega]
      exact this

/-- C10: `Vec::extend_from_slice` is all-or-nothing: if the slice does not fit
it returns `Err(())` and the vector is completely unchanged; otherwise it
returns `Ok(())`, appends every element of the slice in order after the
existing contents, and the new length is the sum of the lengths. -/
theorem vec_extend_from_slice_atomic {T : Type} {N : Nat} (v : Vec T N)
    (other : List T) :
    (v.len + other.length > N → Vec.extendFromSlice v other = (Except.error (), v))
    ∧ (¬ v.len + other.length > N →
        (Vec.extendFromSlice v other).1 = Except.ok ()
        ∧ (Vec.extendFromSlice v other).2.len = v.len + other.length
        ∧ (∀ i, i < v.len → (Vec.extendFromSlice v other).2.buffer i = v.buffer i)
        ∧ ∀ j : Fin other.length,
            (Vec.extendFromSlice v other).2.buffer (v.len + j)
              = some (other.get j)) := by
  unfold Vec.extendFromSlice Vec.capacity
  by_cases h : v.len + other.length > N
  · exact ⟨fun _ => by simp [h], fun hn => absurd h hn⟩
  · refine ⟨fun hx => absurd hx h, fun _ => ⟨by simp [h], ?_, ?_, ?_⟩⟩
    · simp only [if_neg h]
      exact foldl_pushUnchecked_len other v
    · intro i hi
      simp only [if_neg h]
      exact foldl_pushUnchecked_low other v i hi
    · intro j
      simp only [if_neg h]
      exact foldl_pushUnchecked_new other v j

/-- Witness for C10: extending `vTwo` (room for two more) succeeds and
extending `vFull` past capacity fails atomically. -/
theorem vec_extend_from_slice_atomic_witness :
    (Vec.extendFromSlice vTwo [1, 2]).1 = Except.ok ()
    ∧ (Vec.extendFromSlice vTwo [1, 2]).2.len = vTwo.len + 2
    ∧ Vec.extendFromSlice vFull [7] = (Except.error (), vFull) :=
  ⟨((vec_extend_from_slice_atomic vTwo [1, 2]).2 (by decide)).1,
   ((vec_extend_from_slice_atomic vTwo [1, 2]).2 (by decide)).2.1,
   (vec_extend_from_slice_atomic vFull [7]).1 (by decide)⟩

/-! ### C2: FIFO refinement of the split queue -/

theorem sim_empty {T : Type} {w N : Nat} : Sim (Queue.new : Queue T w N) [] := by
  refine ⟨two_pow_pos w, two_pow_pos w, ?_, Nat.zero_le _, fun j => absurd j.2 (by simp)⟩
  show 0 = wrapSub w 0 0
  rw [wrapSub_zero_right, Nat.zero_mod]

/-- Enqueue below capacity: the call is accepted and the simulation relation
is re-established with the value appended at the back. -/
theorem sim_enqueue_ok {T : Type} {w N : Nat} (hN : 2 ≤ N) (hNw : N ≤ 2 ^ w)
    (hdvd : (N - 1) ∣ 2 ^ w) {q : Queue T w N} {st : List T} (hsim : Sim q st)
    (x : T) (hlt : st.length < N - 1) :
    Producer.enqueue q x = (Except.ok (), Producer.enqueuePriv q q.tail x)
    ∧ Sim (Producer.enqueuePriv q q.tail x) (st ++ [x]) := by
  obtain ⟨hh, ht, hlen, hle, hslots⟩ := hsim
  have hcapw : N - 1 < 2 ^ w := lt_of_lt_of_le (by omega) hNw
  have hocc : wrapSub w q.tail q.head = st.length := hlen.symm
  have hcollapse : ∀ a : Nat, a % 2 ^ w % (N - 1) = a % (N - 1) := fun a =>
    Nat.mod_mod_of_dvd a hdvd
  have hcond : ¬ wrapSub w q.tail q.head > q.capacity - 1 := by
    show ¬ wrapSub w q.tail q.head > N - 1 - 1
    rw [hocc]
    omega
  have henq : Producer.enqueue q x = (Except.ok (), Producer.enqueuePriv q q.tail x) := by
    unfold Producer.enqueue
    rw [if_neg hcond]
  have htailmod : q.tail % (N - 1) = (q.head + st.length) % (N - 1) := by
    have h1 : q.tail = wrapAdd w q.head st.length := by
      rw [← hocc]
      exact (wrapAdd_wrapSub hh ht).symm
    rw [h1]
    show (q.head + st.length) % 2 ^ w % (N - 1) = _
    exact hcollapse _
  refine ⟨henq, hh, wrapAdd_lt w _ _, ?_, ?_, ?_⟩
  · show (st ++ [x]).length = wrapSub w (wrapAdd w q.tail 1) q.head
    rw [List.length_append, List.length_singleton,
      wrapSub_succ_left hocc (lt_of_le_of_lt (by omega) hcapw)]
  · rw [List.length_append, List.length_singleton]
    omega
  · intro j
    have hjlt : (j : Nat) < st.length + 1 := by simpa using j.2
    show (if wrapAdd w q.head (j : Nat) % (N - 1) = q.tail % (N - 1) then some x
      else q.buffer (wrapAdd w q.head (j : Nat) % (N - 1))) = some ((st ++ [x]).get j)
    have hposj : wrapAdd w q.head (j : Nat) % (N - 1) = (q.head + (j : Nat)) % (N - 1) := by
      show (q.head + (j : Nat)) % 2 ^ w % (N - 1) = _
      exact hcollapse _
    rcases Nat.lt_or_ge (j : Nat) st.length with hj | hj
    · have hne : wrapAdd w q.head (j : Nat) % (N - 1) ≠ q.tail % (N - 1) := by
        rw [hposj, htailmod]
        intro hcontra
        have hmodeq : (j : Nat) % (N - 1) = st.length % (N - 1) :=
          Nat.ModEq.add_left_cancel' q.head hcontra
        rw [Nat.mod_eq_of_lt (lt_trans hj hlt), Nat.mod_eq_of_lt hlt] at hmodeq
        omega
      rw [if_neg hne]
      have hs := hslots ⟨(j : Nat), hj⟩
      rw [hs]
      have hget : (st ++ [x]).get j = st.get ⟨(j : Nat), hj⟩ := by
        rw [List.get_eq_getElem, List.get_eq_getElem]
        exact List.getElem_append_left hj
      rw [hget]
    · have hjeq : (j : Nat) = st.length := by omega
      have hyes : wrapAdd w q.head (j : Nat) % (N - 1) = q.tail % (N - 1) := by
        rw [hposj, htailmod, hjeq]
      rw [if_pos hyes]
      have hget : (st ++ [x]).get j = x := by
        rw [List.get_eq_getElem]
        exact List.getElem_concat_length st x _ hjeq (by simpa using j.2)
      rw [hget]

/-- Enqueue at capacity: the call is rejected with the item and the state is
untouched. -/
theorem sim_enqueue_err {T : Type} {w N : Nat} (hN : 2 ≤ N) {q : Queue T w N}
    {st : List T} (hsim : Sim q st) (x : T) (heq : st.length = N - 1) :
    Producer.enqueue q x = (Except.error x, q) := by
  obtain ⟨_, _, hlen, _, _⟩ := hsim
  have hocc : wrapSub w q.tail q.head = N - 1 := by
    rw [← heq]
    exact hlen.symm
  unfold Producer.enqueue
  rw [if_pos]
  show wrapSub w q.tail q.head > N - 1 - 1
  rw [hocc]
  omega

/-- Dequeue of an empty queue: `None`, no state change. -/
theorem sim_dequeue_nil {T : Type} {w N : Nat} {q : Queue T w N}
    (hsim : Sim q ([] : List T)) : Consumer.dequeue q = (none, q) := by
  obtain ⟨hh, ht, hlen, _, _⟩ := hsim
  have h0 : wrapSub w q.tail q.head = 0 := hlen.symm
  have hht : q.head = q.tail := (wrapSub_eq_zero_iff hh ht).mp h0
  unfold Consumer.dequeue
  rw [if_neg (fun hc => hc hht)]

/-- Dequeue of a non-empty queue: the front value comes out and the simulation
relation is re-established with the front removed. -/
theorem sim_dequeue_cons {T : Type} {w N : Nat} (hN : 2 ≤ N) (hNw : N ≤ 2 ^ w)
    (hdvd : (N - 1) ∣ 2 ^ w) {q : Queue T w N} {v : T} {rest : List T}
    (hsim : Sim q (v :: rest)) :
    Consumer.dequeue q = (some v, ({ q with head := wrapAdd w q.head 1 } : Queue T w N))
    ∧ Sim ({ q with head := wrapAdd w q.head 1 } : Queue T w N) rest := by
  obtain ⟨hh, ht, hlen, hle, hslots⟩ := hsim
  have hcapw : N - 1 < 2 ^ w := lt_of_lt_of_le (by omega) hNw
  have hocc : wrapSub w q.tail q.head = rest.length + 1 := hlen.symm
  have hlecons : rest.length + 1 ≤ N - 1 := by simpa using hle
  have hcollapse : ∀ a : Nat, a % 2 ^ w % (N - 1) = a % (N - 1) := fun a =>
    Nat.mod_mod_of_dvd a hdvd
  have hmadd : ∀ a b : Nat, (a % 2 ^ w + b) % (N - 1) = (a + b) % (N - 1) := by
    intro a b
    exact Nat.ModEq.add_right b (hcollapse a)
  have hne : q.head ≠ q.tail := by
    intro he
    have h0 : wrapSub w q.tail q.head = 0 := (wrapSub_eq_zero_iff hh ht).mpr he
    omega
  have hv : q.buffer (q.head % (N - 1)) = some v := by
    have h0 := hslots ⟨0, by simp⟩
    have hidx : wrapAdd w q.head 0 % (N - 1) = q.head % (N - 1) := by
      show (q.head + 0) % 2 ^ w % (N - 1) = _
      rw [Nat.add_zero, Nat.mod_eq_of_lt hh]
    rw [hidx] at h0
    exact h0
  have hdeq : Consumer.dequeue q = (some v, { q with head := wrapAdd w q.head 1 }) := by
    unfold Consumer.dequeue Consumer.dequeuePriv
    rw [if_pos hne]
    show (q.buffer (q.head % (N - 1)), _) = _
    rw [hv]
  refine ⟨hdeq, ?_⟩
  refine ⟨wrapAdd_lt w _ _, ht, ?_, by omega, ?_⟩
  · show rest.length = wrapSub w q.tail (wrapAdd w q.head 1)
    rw [wrapSub_succ_right hocc (lt_of_le_of_lt hlecons hcapw)]
  · intro j
    have hj1 : (j : Nat) + 1 < (v :: rest).length := Nat.succ_lt_succ j.2
    have hs := hslots ⟨(j : Nat) + 1, hj1⟩
    have hidx : wrapAdd w (wrapAdd w q.head 1) (j : Nat) % (N - 1)
        = wrapAdd w q.head ((j : Nat) + 1) % (N - 1) := by
      show ((q.head + 1) % 2 ^ w + (j : Nat)) % 2 ^ w % (N - 1)
        = (q.head + ((j : Nat) + 1)) % 2 ^ w % (N - 1)
      rw [hcollapse, hcollapse, hmadd]
      have harith : q.head + 1 + (j : Nat) = q.head + ((j : Nat) + 1) := by omega
      rw [harith]
    show ({ q with head := wrapAdd w q.head 1 } : Queue T w N).buffer
      (wrapAdd w (wrapAdd w q.head 1) (j : Nat) % (N - 1)) = some (rest.get j)
    rw [show ({ q with head := wrapAdd w q.head 1 } : Queue T w N).buffer = q.buffer from rfl,
      hidx, hs]
    rfl

/-- One-step-at-a-time simulation: from any related pair of states, the queue
and the ideal FIFO produce identical event streams and stay related. -/
theorem sim_run {T : Type} {w N : Nat} (hN : 2 ≤ N) (hNw : N ≤ 2 ^ w)
    (hdvd : (N - 1) ∣ 2 ^ w) :
    ∀ (ops : List (Op T)) (q : Queue T w N) (st : List T), Sim q st →
      (runQueue q ops).1 = (runSpec (N - 1) st ops).1
      ∧ Sim (runQueue q ops).2 (runSpec (N - 1) st ops).2 := by
  intro ops
  induction ops with
  | nil => intro q st hsim; exact ⟨rfl, hsim⟩
  | cons op ops ih =>
    intro q st hsim
    cases op with
    | enq x =>
      by_cases hlt : st.length < N - 1
      · obtain ⟨henq, hsim2⟩ := sim_enqueue_ok hN hNw hdvd hsim x hlt
        obtain ⟨ihout, ihsim⟩ := ih _ _ hsim2
        constructor
        · show evOfResult (Producer.enqueue q x).1 :: (runQueue (Producer.enqueue q x).2 ops).1
            = (runSpec (N - 1) st (Op.enq x :: ops)).1
          rw [henq]
          show Ev.enqOk :: (runQueue (Producer.enqueuePriv q q.tail x) ops).1 = _
          unfold runSpec
          rw [if_pos hlt]
          exact congrArg _ ihout
        · show Sim (runQueue (Producer.enqueue q x).2 ops).2 (runSpec (N - 1) st (Op.enq x :: ops)).2
          rw [henq]
          show Sim (runQueue (Producer.enqueuePriv q q.tail x) ops).2 _
          unfold runSpec
          rw [if_pos hlt]
          exact ihsim
      · have heq : st.length = N - 1 := by
          have hle := hsim.2.2.2.1
          omega
        have henq := sim_enqueue_err hN hsim x heq
        obtain ⟨ihout, ihsim⟩ := ih _ _ hsim
        constructor
        · show evOfResult (Producer.enqueue q x).1 :: (runQueue (Producer.enqueue q x).2 ops).1
            = (runSpec (N - 1) st (Op.enq x :: ops)).1
          rw [henq]
          show Ev.enqErr x :: (runQueue q ops).1 = _
          unfold runSpec
          rw [if_neg hlt]
          exact congrArg _ ihout
        · show Sim (runQueue (Producer.enqueue q x).2 ops).2 (runSpec (N - 1) st (Op.enq x :: ops)).2
          rw [henq]
          show Sim (runQueue q ops).2 _
          unfold runSpec
          rw [if_neg hlt]
          exact ihsim
    | deq =>
      cases st with
      | nil =>
        have hdeq := sim_dequeue_nil hsim
        obtain ⟨ihout, ihsim⟩ := ih _ _ hsim
        constructor
        · show Ev.deqRes (Consumer.dequeue q).1 :: (runQueue (Consumer.dequeue q).2 ops).1 = _
          rw [hdeq]
          exact congrArg _ ihout
        · show Sim (runQueue (Consumer.dequeue q).2 ops).2 _
          rw [hdeq]
          exact ihsim
      | cons v rest =>
        obtain ⟨hdeq, hsim2⟩ := sim_dequeue_cons hN hNw hdvd hsim
        obtain ⟨ihout, ihsim⟩ := ih _ _ hsim2
        constructor
        · show Ev.deqRes (Consumer.dequeue q).1 :: (runQueue (Consumer.dequeue q).2 ops).1 = _
          rw [hdeq]
          exact congrArg _ ihout
        · show Sim (runQueue (Consumer.dequeue q).2 ops).2 _
          rw [hdeq]
          exact ihsim

/-- C2 (amended): provided the usable capacity `N-1` divides the counter
modulus `2^w` (so slot indices advance coherently across counter wraparound),
every sequence of checked producer enqueues and consumer dequeues, run
sequentially from a fresh split pair, produces exactly the event stream of an
ideal bounded FIFO queue: values come out in enqueue order, none duplicated,
none lost, each equal to the value enqueued. -/
theorem spsc_fifo_refinement {T : Type} {w N : Nat} (hN : 2 ≤ N) (hNw : N ≤ 2 ^ w)
    (hdvd : (N - 1) ∣ 2 ^ w) (ops : List (Op T)) :
    (runQueue (Queue.new : Queue T w N) ops).1 = (runSpec (N - 1) [] ops).1 :=
  (sim_run hN hNw hdvd ops Queue.new [] sim_empty).1

/-- Witness for C2 (amended) at `N = 5`, `u8` counters (`4 ∣ 256`). -/
theorem spsc_fifo_refinement_witness :
    (runQueue (Queue.new : Queue Nat 8 5)
        [Op.enq 1, Op.enq 2, Op.deq, Op.deq, Op.deq]).1
      = (runSpec 4 [] [Op.enq 1, Op.enq 2, Op.deq, Op.deq, Op.deq]).1 :=
  spsc_fifo_refinement (by decide) (by decide) (by decide) _

/-- C2 counterexample: with `u8` counters and `N = 4` (usable capacity 3, not
a divisor of 256), after 254 enqueue/dequeue rounds the three accepted values
1, 2, 3 come back as 1, 3, 3 — value 2 is lost and 3 is duplicated — whereas
the ideal FIFO returns 1, 2, 3. -/
theorem wrapAdd_rebase (w a m n : Nat) :
    wrapAdd w (wrapAdd w a m) n = wrapAdd w a (m + n) := by
  refine counter_eq_of_cast_eq (wrapAdd_lt w _ _) (wrapAdd_lt w _ _) ?_
  rw [wrapAdd_cast, wrapAdd_cast, wrapAdd_cast]
  push_cast
  ring

theorem wrapAdd_one_ne {h : Nat} (_hh : h < 256) : wrapAdd 8 h 1 ≠ h := by
  show (h + 1) % 2 ^ 8 ≠ h
  have h28 : (2 : Nat) ^ 8 = 256 := by norm_num
  rw [h28]
  omega

theorem pumpEvs_length (n : Nat) : (pumpEvs n).length = 2 * n := by
  induction n with
  | zero => rfl
  | succ n ih =>
    show (pumpEvs n).length + 1 + 1 = 2 * (n + 1)
    omega

/-- Each round of `pump` is an accepted enqueue of `0` into an empty queue
followed by a dequeue returning `0`, leaving both counters advanced by one. -/
theorem runQueue_pump (ops : List (Op Nat)) :
    ∀ (n : Nat) (q : Queue Nat 8 4), q.head = q.tail → q.head < 256 →
      ∃ b : Nat → Option Nat,
        (runQueue q (pump n ++ ops)).1
          = pumpEvs n
            ++ (runQueue (Queue.mk (wrapAdd 8 q.head n) (wrapAdd 8 q.head n) b
                : Queue Nat 8 4) ops).1 := by
  intro n
  induction n with
  | zero =>
    intro q he hlt
    obtain ⟨h, t, b⟩ := q
    have he2 : h = t := he
    subst he2
    refine ⟨b, ?_⟩
    have h0 : wrapAdd 8 h 0 = h := by
      show (h + 0) % 2 ^ 8 = h
      rw [Nat.add_zero]
      exact Nat.mod_eq_of_lt hlt
    rw [h0]
    rfl
  | succ n ih =>
    intro q he hlt
    obtain ⟨h, t, b⟩ := q
    have he2 : h = t := he
    subst he2
    have hlt2 : h < 256 := hlt
    have hocc0 : wrapSub 8 h h = 0 :=
      (wrapSub_eq_zero_iff (show h < 2 ^ 8 from hlt2) (show h < 2 ^ 8 from hlt2)).mpr rfl
    have henq : Producer.enqueue (⟨h, h, b⟩ : Queue Nat 8 4) 0
        = (Except.ok (), Producer.enqueuePriv ⟨h, h, b⟩ h 0) := by
      unfold Producer.enqueue
      rw [if_neg]
      show ¬ wrapSub 8 h h > (⟨h, h, b⟩ : Queue Nat 8 4).capacity - 1
      rw [hocc0]
      show ¬ 0 > 4 - 1 - 1
      omega
    have hdeq : Consumer.dequeue (Producer.enqueuePriv (⟨h, h, b⟩ : Queue Nat 8 4) h 0)
        = (some 0, (Queue.mk (wrapAdd 8 h 1) (wrapAdd 8 h 1)
            (fun i => if i = h % 3 then some 0 else b i) : Queue Nat 8 4)) := by
      unfold Consumer.dequeue
      rw [if_pos (show (Producer.enqueuePriv (⟨h, h, b⟩ : Queue Nat 8 4) h 0).head
        ≠ (Producer.enqueuePriv (⟨h, h, b⟩ : Queue Nat 8 4) h 0).tail
        from fun hc => wrapAdd_one_ne hlt2 hc.symm)]
      unfold Consumer.dequeuePriv Producer.enqueuePriv
      show (if h % 3 = h % 3 then some 0 else b (h % 3), _) = _
      rw [if_pos rfl]
      rfl
    obtain ⟨b2, hb2⟩ := ih (Queue.mk (wrapAdd 8 h 1) (wrapAdd 8 h 1)
      (fun i => if i = h % 3 then some 0 else b i) : Queue Nat 8 4) rfl
      (wrapAdd_lt 8 h 1)
    refine ⟨b2, ?_⟩
    show evOfResult (Producer.enqueue (⟨h, h, b⟩ : Queue Nat 8 4) 0).1
        :: (runQueue (Producer.enqueue (⟨h, h, b⟩ : Queue Nat 8 4) 0).2
            (Op.deq :: (pump n ++ ops))).1
      = pumpEvs (n + 1) ++ _
    rw [henq]
    show Ev.enqOk
        :: Ev.deqRes (Consumer.dequeue (Producer.enqueuePriv (⟨h, h, b⟩ : Queue Nat 8 4) h 0)).1
        :: (runQueue (Consumer.dequeue (Producer.enqueuePriv (⟨h, h, b⟩ : Queue Nat 8 4) h 0)).2
            (pump n ++ ops)).1
      = pumpEvs (n + 1) ++ _
    rw [hdeq]
    show Ev.enqOk :: Ev.deqRes (some 0)
        :: (runQueue (Queue.mk (wrapAdd 8 h 1) (wrapAdd 8 h 1)
            (fun i => if i = h % 3 then some 0 else b i) : Queue Nat 8 4)
            (pump n ++ ops)).1
      = pumpEvs (n + 1) ++ _
    rw [hb2, wrapAdd_rebase]
    rw [show 1 + n = n + 1 from by omega]
    rfl

/-- A successful `u8`/`N = 4` enqueue step, with all wrapped values given as
explicit equalities (discharged by `decide` at the use sites). -/
theorem enqueue_u8n4 (b : Nat → Option Nat) (h t t1 m x : Nat)
    (hc : wrapSub 8 t h ≤ 2) (ht1 : wrapAdd 8 t 1 = t1) (hm : t % 3 = m) :
    Producer.enqueue (Queue.mk h t b : Queue Nat 8 4) x
      = (Except.ok (), Queue.mk h t1 (fun j => if j = m then some x else b j)) := by
  subst ht1 hm
  unfold Producer.enqueue Producer.enqueuePriv
  rw [if_neg (show ¬ wrapSub 8 t h > (Queue.mk h t b : Queue Nat 8 4).capacity - 1 from by
    show ¬ wrapSub 8 t h > 2
    omega)]
  rfl

/-- A successful `u8`/`N = 4` dequeue step, with all wrapped values given as
explicit equalities (discharged by `decide` at the use sites). -/
theorem dequeue_u8n4 (b : Nat → Option Nat) (h t h1 m v : Nat)
    (hne : h ≠ t) (hh1 : wrapAdd 8 h 1 = h1) (hm : h % 3 = m)
    (hv : b m = some v) :
    Consumer.dequeue (Queue.mk h t b : Queue Nat 8 4) = (some v, Queue.mk h1 t b) := by
  subst hh1 hm
  unfold Consumer.dequeue Consumer.dequeuePriv
  rw [if_pos (show (Queue.mk h t b : Queue Nat 8 4).head ≠ (Queue.mk h t b).tail from hne)]
  show (b (h % 3), _) = _
  rw [hv]

/-- Unfolding step of `runQueue` on an enqueue, given the enqueue's result. -/
theorem runQueue_cons_enq {q q2 : Queue Nat 8 4} {r : Except Nat Unit} {x : Nat}
    (he : Producer.enqueue q x = (r, q2)) (ops : List (Op Nat)) :
    (runQueue q (Op.enq x :: ops)).1 = evOfResult r :: (runQueue q2 ops).1 := by
  show evOfResult (Producer.enqueue q x).1 :: (runQueue (Producer.enqueue q x).2 ops).1 = _
  rw [he]

/-- Unfolding step of `runQueue` on a dequeue, given the dequeue's result. -/
theorem runQueue_cons_deq {q q2 : Queue Nat 8 4} {r : Option Nat}
    (hd : Consumer.dequeue q = (r, q2)) (ops : List (Op Nat)) :
    (runQueue q (Op.deq :: ops)).1 = Ev.deqRes r :: (runQueue q2 ops).1 := by
  show Ev.deqRes (Consumer.dequeue q).1 :: (runQueue (Consumer.dequeue q).2 ops).1 = _
  rw [hd]

/-- After the counters reach 254, the tail segment of the counterexample
schedule misbehaves: enqueues of 1, 2, 3 are all accepted, but the third write
lands on the slot still holding 2 (`0 % 3 = 255 % 3 = 0` after the `u8`
wraparound), so the dequeues return 1, 3, 3. Holds for any buffer contents. -/
theorem runQueue_tail_segment (b : Nat → Option Nat) :
    (runQueue (Queue.mk 254 254 b : Queue Nat 8 4)
        [Op.enq 1, Op.enq 2, Op.enq 3, Op.deq, Op.deq, Op.deq]).1
      = [Ev.enqOk, Ev.enqOk, Ev.enqOk,
         Ev.deqRes (some 1), Ev.deqRes (some 3), Ev.deqRes (some 3)] := by
  have e1 := enqueue_u8n4 b 254 254 255 2 1 (by decide) (by decide) (by decide)
  have e2 := enqueue_u8n4 (fun j => if j = 2 then some 1 else b j) 254 255 0 0 2
    (by decide) (by decide) (by decide)
  have e3 := enqueue_u8n4
    (fun j => if j = 0 then some 2 else (fun j => if j = 2 then some 1 else b j) j)
    254 0 1 0 3 (by decide) (by decide) (by decide)
  have d1 := dequeue_u8n4
    (fun j => if j = 0 then some 3 else
      (fun j => if j = 0 then some 2 else (fun j => if j = 2 then some 1 else b j) j) j)
    254 1 255 2 1 (by decide) (by decide) (by decide) rfl
  have d2 := dequeue_u8n4
    (fun j => if j = 0 then some 3 else
      (fun j => if j = 0 then some 2 else (fun j => if j = 2 then some 1 else b j) j) j)
    255 1 0 0 3 (by decide) (by decide) (by decide) rfl
  have d3 := dequeue_u8n4
    (fun j => if j = 0 then some 3 else
      (fun j => if j = 0 then some 2 else (fun j => if j = 2 then some 1 else b j) j) j)
    0 1 1 0 3 (by decide) (by decide) (by decide) rfl
  rw [runQueue_cons_enq e1, runQueue_cons_enq e2, runQueue_cons_enq e3,
    runQueue_cons_deq d1, runQueue_cons_deq d2, runQueue_cons_deq d3]
  rfl

/-- The ideal FIFO runs each `pump` round as an accepted enqueue of `0` into
the empty state followed by a dequeue of `0`. -/
theorem runSpec_pump (ops : List (Op Nat)) :
    ∀ n : Nat, (runSpec 3 [] (pump n ++ ops)).1 = pumpEvs n ++ (runSpec 3 [] ops).1 := by
  intro n
  induction n with
  | zero => rfl
  | succ n ih =>
    show Ev.enqOk :: Ev.deqRes (some 0) :: (runSpec 3 [] (pump n ++ ops)).1
      = pumpEvs (n + 1) ++ (runSpec 3 [] ops).1
    rw [ih]
    rfl

/-- C2 counterexample: with `u8` counters and `N = 4` (usable capacity 3,
which does not divide 256), the schedule `cexOps` makes the split queue
diverge from FIFO order: the three accepted values 1, 2, 3 are dequeued as
1, 3, 3 — value 2 is lost and 3 is duplicated — while the ideal FIFO returns
1, 2, 3. -/
theorem spsc_fifo_counterexample :
    (runQueue (Queue.new : Queue Nat 8 4) cexOps).1 ≠ (runSpec 3 [] cexOps).1
    ∧ (runQueue (Queue.new : Queue Nat 8 4) cexOps).1.drop 508
      = [Ev.enqOk, Ev.enqOk, Ev.enqOk,
         Ev.deqRes (some 1), Ev.deqRes (some 3), Ev.deqRes (some 3)]
    ∧ (runSpec 3 [] cexOps).1.drop 508
      = [Ev.enqOk, Ev.enqOk, Ev.enqOk,
         Ev.deqRes (some 1), Ev.deqRes (some 2), Ev.deqRes (some 3)] := by
  obtain ⟨b, hb⟩ := runQueue_pump [Op.enq 1, Op.enq 2, Op.enq 3, Op.deq, Op.deq, Op.deq]
    254 Queue.new rfl (by decide)
  rw [show (Queue.new : Queue Nat 8 4).head = 0 from rfl] at hb
  rw [show wrapAdd 8 0 254 = 254 from by decide] at hb
  rw [runQueue_tail_segment b] at hb
  have hs := runSpec_pump [Op.enq 1, Op.enq 2, Op.enq 3, Op.deq, Op.deq, Op.deq] 254
  rw [show (runSpec 3 [] [Op.enq 1, Op.enq 2, Op.enq 3, Op.deq, Op.deq, Op.deq]).1
      = [Ev.enqOk, Ev.enqOk, Ev.enqOk,
         Ev.deqRes (some 1), Ev.deqRes (some 2), Ev.deqRes (some 3)] from rfl] at hs
  have hlen : (508 : Nat) = (pumpEvs 254).length := by
    rw [pumpEvs_length]
  refine ⟨?_, ?_, ?_⟩
  · show (runQueue (Queue.new : Queue Nat 8 4) cexOps).1 ≠ (runSpec 3 [] cexOps).1
    unfold cexOps
    rw [hb, hs]
    intro hcontra
    have hdiff := List.append_cancel_left hcontra
    exact absurd hdiff (by decide)
  · unfold cexOps
    rw [hb, hlen, List.drop_left]
  · unfold cexOps
    rw [hs, hlen, List.drop_left]

end Heapless
